import Mathlib

/-!
Verification development for the pytorch-crf sequence tagger.

Part 1 embeds the dataset bookkeeping of src/pycrf/io/dataset.py.
Part 2 embeds the Bi-LSTM CRF tagger of src/yapycrf/modules/tagger.py
together with the linear-chain CRF operations it delegates to; the CRF
layer itself (transition_score, forward/log-likelihood, viterbi_tags),
the sequence_mask helper, the CharLSTM and the Vocab class are not part
of the two source files, so those are modelled from the specification.

Emission scores, transition scores and biases are real numbers; the
floating-point arithmetic of the original is modelled by exact real
arithmetic.
-/

-- ## Part 1: Dataset (src/pycrf/io/dataset.py)

/-- A dataset: parallel lists of source and target tensors
(class Dataset, src/pycrf/io/dataset.py lines 12-35).  The element types
of the tensor lists are abstract. -/
structure Dataset (σ τ : Type) where
  source : List σ
  target : List τ

/-- `Dataset.__init__`: both lists start empty (lines 15-17). -/
def Dataset.empty (σ τ : Type) : Dataset σ τ :=
  ⟨[], []⟩

/-- `Dataset.__len__`: the length of the source list (lines 26-27). -/
def Dataset.length {σ τ : Type} (d : Dataset σ τ) : ℕ :=
  d.source.length

/-- `Dataset.append`: push one example onto both lists (lines 32-35). -/
def Dataset.append {σ τ : Type} (d : Dataset σ τ) (src : σ) (tgt : τ) : Dataset σ τ :=
  ⟨d.source ++ [src], d.target ++ [tgt]⟩

/-- The ValueError message Python raises when unpacking an empty zip. -/
def unpackErrMsg : String :=
  "not enough values to unpack"

/-- `Dataset.shuffle` (lines 37-41): zip the source and target lists,
permute the combined list in place (`random.shuffle` is modelled by the
permutation `rand` supplied by the caller), and unpack the result back
into the two lists.  Unpacking `zip(*combined)` into two targets raises
a ValueError when `combined` is empty. -/
def Dataset.shuffle {σ τ : Type} (d : Dataset σ τ)
    (rand : List (σ × τ) → List (σ × τ)) : Except String (Dataset σ τ) :=
  match rand (d.source.zip d.target) with
  | [] => Except.error unpackErrMsg
  | x :: xs => Except.ok ⟨(x :: xs).map Prod.fst, (x :: xs).map Prod.snd⟩

/-- The tab character used as the token/label separator. -/
def tabChar : Char :=
  Char.ofNat 9

/-- The empty string, the default value for missing list fields. -/
def emptyStr : String :=
  ""

/-- Python `str.rstrip()`: drop trailing whitespace. -/
def rstrip (s : String) : String :=
  ⟨(s.data.reverse.dropWhile Char.isWhitespace).reverse⟩

/-- Python `str.split(sep)` on a character list: split at every
occurrence of `sep`; the result always has at least one (possibly
empty) field. -/
def splitOn (sep : Char) : List Char → List (List Char)
  | [] => [[]]
  | c :: cs =>
    match splitOn sep cs with
    | [] => [[c]]
    | h :: t => if c = sep then [] :: h :: t else (c :: h) :: t

/-- `line.rstrip().split('\t')` from `Dataset.load_file` (line 90). -/
def splitTab (line : String) : List String :=
  (splitOn tabChar (rstrip line).data).map (fun l => ⟨l⟩)

/-- The loop body of `Dataset.load_file` (lines 86-107): process the
remaining lines carrying the current accumulated sentence (`src`, `tgt`)
and the count `i` of sentences loaded so far.  A line whose
tab-split has exactly one field ends the current sentence: the sentence
is converted by `l2t`/`s2t` (modelling `vocab.labs2tensor` and
`vocab.sent2tensor`) and appended to the dataset, and the loop breaks
once the count reaches `limit`.  Any other line contributes its first
field to `src` and its second to `tgt`.  Whatever remains in the
accumulators when the lines run out is discarded. -/
def loadFileGo {σ τ : Type} (s2t : List String → σ) (l2t : List String → τ)
    (limit : Option ℕ) :
    List String → Dataset σ τ → List String → List String → ℕ → Dataset σ τ
  | [], d, _src, _tgt, _i => d
  | line :: rest, d, src, tgt, i =>
    let ll := splitTab line
    if ll.length = 1 then
      let d2 : Dataset σ τ := ⟨d.source ++ [s2t src], d.target ++ [l2t tgt]⟩
      if limit = some (i + 1) then d2
      else loadFileGo s2t l2t limit rest d2 [] [] (i + 1)
    else
      loadFileGo s2t l2t limit rest d (src ++ [ll.headD emptyStr]) (tgt ++ [ll.getD 1 emptyStr]) i

/-- `Dataset.load_file` (lines 43-107) on the list of lines of the file,
starting from empty accumulators and a zero sentence count. -/
def Dataset.load_file {σ τ : Type} (d : Dataset σ τ) (s2t : List String → σ)
    (l2t : List String → τ) (lines : List String) (limit : Option ℕ) : Dataset σ τ :=
  loadFileGo s2t l2t limit lines d [] [] 0

-- ## Part 2: the Bi-LSTM CRF tagger (src/yapycrf/modules/tagger.py)

/-- The learned parameters of the linear-chain CRF layer (spec section 4.3):
a transition matrix `trans` (trans i j = score of moving from label i to
label j), a start-bias vector and an end-bias vector over the `n` labels. -/
structure CRF (n : ℕ) where
  trans : Fin n → Fin n → ℝ
  startBias : Fin n → ℝ
  endBias : Fin n → ℝ

/-- Modelled from the spec: the `sequence_mask` helper imported by
tagger.py from `.utils` is not among the source files; the spec fixes it
as mask position `t` valid iff `t < len`. -/
def sequence_mask (len t : ℕ) : Bool :=
  t < len

/-- Modelled from the spec: `crf.transition_score(labs, lens)` called at
tagger.py line 175 is not among the source files.  Per spec section 4.3
it is the transition score from each previous gold label to the current
one for positions 1..len-1, plus the start bias of the first label and
the end bias of the label at the last valid position `len - 1`. -/
def transition_score {n : ℕ} (c : CRF n) (labs : ℕ → Fin n) (len : ℕ) : ℝ :=
  c.startBias (labs 0)
    + (∑ t in Finset.range (len - 1), c.trans (labs t) (labs (t + 1)))
    + c.endBias (labs (len - 1))

/-- `Tagger._score` (tagger.py lines 158-177): gather the emission score
of the gold label at every position of the padded sequence (padded
length `lmax`), multiply by the float mask, sum, and add the transition
score.  One batch element is modelled; `len` is its true length. -/
def tagger_score {n : ℕ} (c : CRF n) (feats : ℕ → Fin n → ℝ) (labs : ℕ → Fin n)
    (lmax len : ℕ) : ℝ :=
  (∑ t in Finset.range lmax,
      feats t (labs t) * (if sequence_mask len t then (1 : ℝ) else 0))
    + transition_score c labs len

/-- The score of the gold label sequence `labs` of true length `len`:
`Tagger._score` with the padded length equal to the true length. -/
def seqScore {n : ℕ} (c : CRF n) (feats : ℕ → Fin n → ℝ) (labs : ℕ → Fin n)
    (len : ℕ) : ℝ :=
  tagger_score c feats labs len len

/-- Log-sum-exp over the label set. -/
noncomputable def logsumexp {n : ℕ} (f : Fin n → ℝ) : ℝ :=
  Real.log (∑ l, Real.exp (f l))

/-- Modelled from the spec: the forward-algorithm table of the CRF layer
(spec section 4.3).  `alpha t l` is the log-sum-exp, over all label
sequences covering positions 0..t and ending in label `l`, of the
partial score so far.  Positions beyond the true length freeze the
table, so the per-sequence result only ever reads `alpha` at the last
valid position. -/
noncomputable def alpha {n : ℕ} (c : CRF n) (feats : ℕ → Fin n → ℝ) :
    ℕ → Fin n → ℝ
  | 0 => fun l => c.startBias l + feats 0 l
  | t + 1 => fun l =>
      logsumexp (fun prev => alpha c feats t prev + c.trans prev l) + feats (t + 1) l

/-- Modelled from the spec: the log-partition function of the CRF layer
for one sequence of true length `len` (spec section 4.3): log-sum-exp of
the forward table at the last valid position plus the end bias. -/
noncomputable def partition_function {n : ℕ} (c : CRF n) (feats : ℕ → Fin n → ℝ)
    (len : ℕ) : ℝ :=
  logsumexp (fun l => alpha c feats (len - 1) l + c.endBias l)

/-- The error message for a rejected zero-length sequence. -/
def zeroLenErrMsg : String :=
  "sequence of length 0 rejected"

/-- Modelled from the spec: the CRF layer's forward call
`self.crf(feats, labs, mask)` at tagger.py line 254 is not among the
source files.  Per spec sections 4.3 and 7 it returns the log-likelihood
`sequence_score - partition_function` of the gold sequence, and a
sequence of reported length 0 is rejected before the dynamic program
runs. -/
noncomputable def crf_loglik {n : ℕ} (c : CRF n) (feats : ℕ → Fin n → ℝ)
    (labs : ℕ → Fin n) (len : ℕ) : Except String ℝ :=
  if len = 0 then Except.error zeroLenErrMsg
  else Except.ok (seqScore c feats labs len - partition_function c feats len)

/-- An index of `f`'s maximum over the nonempty label set; the spec
(section 4.3) lets the Viterbi tie-break pick any maximizer, chosen
consistently. -/
noncomputable def argmaxF {n : ℕ} [NeZero n] (f : Fin n → ℝ) : Fin n :=
  (Finset.exists_max_image Finset.univ f
    ⟨⟨0, Nat.pos_of_ne_zero (NeZero.ne n)⟩, Finset.mem_univ _⟩).choose

/-- The maximum of `f` over the label set, realised at `argmaxF f`. -/
noncomputable def maxF {n : ℕ} [NeZero n] (f : Fin n → ℝ) : ℝ :=
  f (argmaxF f)

/-- Modelled from the spec: the Viterbi table (spec section 4.3), the
forward table with log-sum-exp replaced by max.  `vit t l` is the best
partial score over label sequences covering positions 0..t that end in
label `l`. -/
noncomputable def vit {n : ℕ} [NeZero n] (c : CRF n) (feats : ℕ → Fin n → ℝ) :
    ℕ → Fin n → ℝ
  | 0 => fun l => c.startBias l + feats 0 l
  | t + 1 => fun l =>
      maxF (fun prev => vit c feats t prev + c.trans prev l) + feats (t + 1) l

/-- Modelled from the spec: the Viterbi backpointer (spec section 4.3).
`bp t l` is the recorded best predecessor at position `t` for a
sequence carrying label `l` at position `t + 1`. -/
noncomputable def bp {n : ℕ} [NeZero n] (c : CRF n) (feats : ℕ → Fin n → ℝ)
    (t : ℕ) (l : Fin n) : Fin n :=
  argmaxF (fun prev => vit c feats t prev + c.trans prev l)

/-- The backpointer trace, indexed by distance from the end: entry 0 is
the label at the last valid position `last` (maximizing the Viterbi
value plus end bias) and entry `k + 1` is the backpointer taken from the
entry at distance `k`. -/
noncomputable def bestAux {n : ℕ} [NeZero n] (c : CRF n) (feats : ℕ → Fin n → ℝ)
    (last : ℕ) : ℕ → Fin n
  | 0 => argmaxF (fun l => vit c feats last l + c.endBias l)
  | k + 1 => bp c feats (last - (k + 1)) (bestAux c feats last k)

/-- The decoded label at position `t` of the best path for a sequence
whose last valid position is `last`. -/
noncomputable def bestLab {n : ℕ} [NeZero n] (c : CRF n) (feats : ℕ → Fin n → ℝ)
    (last t : ℕ) : Fin n :=
  bestAux c feats last (last - t)

/-- The decoded best path for a sequence whose last valid position is
`last`: the labels at positions 0..last, padded positions excluded. -/
noncomputable def viterbiPath {n : ℕ} [NeZero n] (c : CRF n)
    (feats : ℕ → Fin n → ℝ) (last : ℕ) : List (Fin n) :=
  (List.range (last + 1)).map (bestLab c feats last)

/-- Modelled from the spec: `crf.viterbi_tags(feats, mask)` called at
tagger.py line 211 is not among the source files.  Per spec sections 4.3
and 7 it decodes the best path over the true length of the sequence and
rejects a sequence of reported length 0 before the dynamic program
runs. -/
noncomputable def viterbi_tags {n : ℕ} [NeZero n] (c : CRF n)
    (feats : ℕ → Fin n → ℝ) (len : ℕ) : Except String (List (Fin n)) :=
  if len = 0 then Except.error zeroLenErrMsg
  else Except.ok (viterbiPath c feats (len - 1))

/-- The vocabulary object (the `Vocab` class is not among the source
files; only the counts checked at construction are needed). -/
structure Vocab where
  n_chars : ℕ
  n_labels : ℕ

/-- The character-level LSTM (the `CharLSTM` class is not among the
source files; only the character-vocabulary size checked at construction
is needed). -/
structure CharLSTM where
  n_chars : ℕ
  output_size : ℕ

/-- The Tagger (tagger.py lines 14-104) over `n` labels and an abstract
input type `ι` standing for the pair (chars, words).  The feature
composer `Tagger._feats` (char LSTM final states, concatenation with
word embeddings, Bi-LSTM, linear projection to label scores) is a
deterministic floating-point neural computation whose internals none of
the claims constrain; it is abstracted as the emission-score function
`featsOf`. -/
structure Tagger (n : ℕ) (ι : Type) where
  vocab : Vocab
  char_lstm : CharLSTM
  crf : CRF n
  featsOf : ι → ℕ → Fin n → ℝ

/-- `Tagger.__init__` (tagger.py lines 67-78): the constructor asserts
`vocab.n_chars == char_lstm.n_chars` and `vocab.n_labels == crf.num_tags`
(the CRF over `Fin n` has `n` tags) and otherwise just stores the
components; a failed assert is construction failure (`none`). -/
def Tagger.init {n : ℕ} {ι : Type} (v : Vocab) (cl : CharLSTM) (c : CRF n)
    (fo : ι → ℕ → Fin n → ℝ) : Option (Tagger n ι) :=
  if v.n_chars = cl.n_chars ∧ v.n_labels = n then some ⟨v, cl, c, fo⟩ else none

/-- `Tagger.predict` (tagger.py lines 179-213): build the mask from the
length, compute the emission scores with the feature composer, and run
the Viterbi decode. -/
noncomputable def Tagger.predict {n : ℕ} {ι : Type} [NeZero n] (tg : Tagger n ι)
    (input : ι) (len : ℕ) : Except String (List (Fin n)) :=
  viterbi_tags tg.crf (tg.featsOf input) len

/-- `Tagger.forward` (tagger.py lines 215-256): build the mask, compute
the emission scores with the feature composer, obtain the
log-likelihood from the CRF layer and return its negation. -/
noncomputable def Tagger.forward {n : ℕ} {ι : Type} (tg : Tagger n ι) (input : ι)
    (labs : ℕ → Fin n) (len : ℕ) : Except String ℝ :=
  (crf_loglik tg.crf (tg.featsOf input) labs len).map (fun x => (-1 : ℝ) * x)

/-- Partial path score, the common ladder of both dynamic programs (spec
section 4.3): the score accumulated by the gold labels over positions
0..t, start bias included, end bias not yet added. -/
def partialScore {n : ℕ} (c : CRF n) (feats : ℕ → Fin n → ℝ) (labs : ℕ → Fin n) :
    ℕ → ℝ
  | 0 => c.startBias (labs 0) + feats 0 (labs 0)
  | t + 1 => partialScore c feats labs t + c.trans (labs t) (labs (t + 1))
      + feats (t + 1) (labs (t + 1))


-- ## Concrete sample instances used to instantiate the theorems

/-- A concrete CRF over one label with all scores zero. -/
noncomputable def sampleCRF : CRF 1 :=
  ⟨fun _ _ => 0, fun _ => 0, fun _ => 0⟩

/-- Concrete all-zero emission scores. -/
noncomputable def sampleFeats : ℕ → Fin 1 → ℝ :=
  fun _ _ => 0

/-- Concrete emission scores agreeing with `sampleFeats` at position 0
and differing from it at every later position. -/
noncomputable def sampleFeats2 : ℕ → Fin 1 → ℝ :=
  fun t _ => if t = 0 then 0 else 5

/-- The constant gold label sequence over one label. -/
def sampleLabs : ℕ → Fin 1 :=
  fun _ => 0

/-- A concrete tagger over one label. -/
noncomputable def sampleTagger : Tagger 1 Unit :=
  ⟨⟨5, 1⟩, ⟨5, 4⟩, sampleCRF, fun _ => sampleFeats⟩

/-- A concrete token line: a token, a tab, and a label. -/
def sampleTokenLine : String :=
  "Hi\tO"

-- ## Lemmas about the score ladder and the forward algorithm

lemma partialScore_closed {n : ℕ} (c : CRF n) (feats : ℕ → Fin n → ℝ)
    (labs : ℕ → Fin n) (t : ℕ) :
    partialScore c feats labs t =
      c.startBias (labs 0) + (∑ i in Finset.range (t + 1), feats i (labs i))
        + ∑ i in Finset.range t, c.trans (labs i) (labs (i + 1)) := by
  induction t with
  | zero => simp [partialScore]
  | succ t ih =>
      rw [partialScore, ih]
      simp only [Finset.sum_range_succ]
      ring

lemma seqScore_succ {n : ℕ} (c : CRF n) (feats : ℕ → Fin n → ℝ)
    (labs : ℕ → Fin n) (t : ℕ) :
    seqScore c feats labs (t + 1) =
      partialScore c feats labs t + c.endBias (labs t) := by
  have hmask : ∑ i in Finset.range (t + 1),
      feats i (labs i) * (if sequence_mask (t + 1) i then (1 : ℝ) else 0) =
      ∑ i in Finset.range (t + 1), feats i (labs i) := by
    refine Finset.sum_congr rfl (fun i hi => ?_)
    simp [sequence_mask, Finset.mem_range.mp hi]
  rw [seqScore, tagger_score, hmask, transition_score, partialScore_closed]
  simp only [Nat.add_sub_cancel]
  ring

lemma logsumexp_ge {n : ℕ} (f : Fin n → ℝ) (j : Fin n) : f j ≤ logsumexp f := by
  have h1 : Real.exp (f j) ≤ ∑ l, Real.exp (f l) :=
    Finset.single_le_sum (fun i _ => (Real.exp_pos (f i)).le) (Finset.mem_univ j)
  have h2 := Real.log_le_log (Real.exp_pos (f j)) h1
  rwa [Real.log_exp] at h2

lemma alpha_ge_partial {n : ℕ} (c : CRF n) (feats : ℕ → Fin n → ℝ)
    (labs : ℕ → Fin n) : ∀ t, partialScore c feats labs t ≤ alpha c feats t (labs t) := by
  intro t
  induction t with
  | zero => simp [partialScore, alpha]
  | succ t ih =>
      have hlse := logsumexp_ge
        (fun prev => alpha c feats t prev + c.trans prev (labs (t + 1))) (labs t)
      show partialScore c feats labs (t + 1) ≤
        logsumexp (fun prev => alpha c feats t prev + c.trans prev (labs (t + 1)))
          + feats (t + 1) (labs (t + 1))
      rw [partialScore]
      simp only at hlse
      linarith

lemma partition_ge_seqScore {n : ℕ} (c : CRF n) (feats : ℕ → Fin n → ℝ)
    (labs : ℕ → Fin n) (t : ℕ) :
    seqScore c feats labs (t + 1) ≤ partition_function c feats (t + 1) := by
  have h1 := alpha_ge_partial c feats labs t
  have h2 := logsumexp_ge (fun l => alpha c feats t l + c.endBias l) (labs t)
  simp only at h2
  rw [seqScore_succ, partition_function]
  simp only [Nat.add_sub_cancel]
  linarith

-- ## Lemmas about the Viterbi decode

lemma argmaxF_le {n : ℕ} [NeZero n] (f : Fin n → ℝ) (j : Fin n) :
    f j ≤ f (argmaxF f) := by
  have h := (Finset.exists_max_image Finset.univ f
    ⟨⟨0, Nat.pos_of_ne_zero (NeZero.ne n)⟩, Finset.mem_univ _⟩).choose_spec
  exact h.2 j (Finset.mem_univ j)

lemma maxF_ge {n : ℕ} [NeZero n] (f : Fin n → ℝ) (j : Fin n) : f j ≤ maxF f :=
  argmaxF_le f j

lemma vit_ge_partial {n : ℕ} [NeZero n] (c : CRF n) (feats : ℕ → Fin n → ℝ)
    (labs : ℕ → Fin n) : ∀ t, partialScore c feats labs t ≤ vit c feats t (labs t) := by
  intro t
  induction t with
  | zero => simp [partialScore, vit]
  | succ t ih =>
      have hmax : vit c feats t (labs t) + c.trans (labs t) (labs (t + 1)) ≤
          maxF (fun prev => vit c feats t prev + c.trans prev (labs (t + 1))) :=
        maxF_ge (fun prev => vit c feats t prev + c.trans prev (labs (t + 1))) (labs t)
      show partialScore c feats labs (t + 1) ≤
        maxF (fun prev => vit c feats t prev + c.trans prev (labs (t + 1)))
          + feats (t + 1) (labs (t + 1))
      rw [partialScore]
      linarith

lemma bestLab_last {n : ℕ} [NeZero n] (c : CRF n) (feats : ℕ → Fin n → ℝ)
    (last : ℕ) :
    bestLab c feats last last = argmaxF (fun l => vit c feats last l + c.endBias l) := by
  simp [bestLab, Nat.sub_self, bestAux]

lemma bestLab_step {n : ℕ} [NeZero n] (c : CRF n) (feats : ℕ → Fin n → ℝ)
    (last t : ℕ) (h : t < last) :
    bestLab c feats last t = bp c feats t (bestLab c feats last (t + 1)) := by
  have h1 : last - t = (last - (t + 1)) + 1 := by omega
  have h2 : last - (last - (t + 1) + 1) = t := by omega
  simp only [bestLab, h1, bestAux, h2]

lemma vit_achieve {n : ℕ} [NeZero n] (c : CRF n) (feats : ℕ → Fin n → ℝ)
    (last : ℕ) : ∀ t, t ≤ last →
    partialScore c feats (bestLab c feats last) t =
      vit c feats t (bestLab c feats last t) := by
  intro t
  induction t with
  | zero => intro _; simp [partialScore, vit]
  | succ t ih =>
      intro hle
      have ht : t < last := by omega
      have hstep := bestLab_step c feats last t ht
      have ihv := ih (by omega)
      show partialScore c feats (bestLab c feats last) (t + 1) =
        maxF (fun prev =>
            vit c feats t prev + c.trans prev (bestLab c feats last (t + 1)))
          + feats (t + 1) (bestLab c feats last (t + 1))
      have hm : maxF (fun prev =>
          vit c feats t prev + c.trans prev (bestLab c feats last (t + 1))) =
          vit c feats t (bestLab c feats last t)
            + c.trans (bestLab c feats last t) (bestLab c feats last (t + 1)) := by
        rw [hstep]
        rfl
      rw [partialScore, hm, ihv]

lemma viterbi_opt {n : ℕ} [NeZero n] (c : CRF n) (feats : ℕ → Fin n → ℝ)
    (last : ℕ) (labs : ℕ → Fin n) :
    seqScore c feats labs (last + 1) ≤
      seqScore c feats (bestLab c feats last) (last + 1) := by
  have h1 := vit_ge_partial c feats labs last
  have h2 : vit c feats last (labs last) + c.endBias (labs last) ≤
      vit c feats last (argmaxF (fun l => vit c feats last l + c.endBias l))
        + c.endBias (argmaxF (fun l => vit c feats last l + c.endBias l)) :=
    argmaxF_le (fun l => vit c feats last l + c.endBias l) (labs last)
  rw [seqScore_succ, seqScore_succ,
    vit_achieve c feats last last (le_refl last), bestLab_last]
  linarith

-- ## Congruence lemmas: only emission scores at valid positions matter

lemma alpha_congr {n : ℕ} (c : CRF n) (f1 f2 : ℕ → Fin n → ℝ) :
    ∀ t, (∀ i, i ≤ t → ∀ l, f1 i l = f2 i l) →
      ∀ l, alpha c f1 t l = alpha c f2 t l := by
  intro t
  induction t with
  | zero => intro h l; simp [alpha, h 0 (le_refl 0) l]
  | succ t ih =>
      intro h l
      show logsumexp (fun prev => alpha c f1 t prev + c.trans prev l) + f1 (t + 1) l =
        logsumexp (fun prev => alpha c f2 t prev + c.trans prev l) + f2 (t + 1) l
      have hfun : (fun prev => alpha c f1 t prev + c.trans prev l) =
          (fun prev => alpha c f2 t prev + c.trans prev l) :=
        funext fun p => by rw [ih (fun i hi => h i (by omega)) p]
      rw [hfun, h (t + 1) (le_refl _) l]

lemma vit_congr {n : ℕ} [NeZero n] (c : CRF n) (f1 f2 : ℕ → Fin n → ℝ) :
    ∀ t, (∀ i, i ≤ t → ∀ l, f1 i l = f2 i l) →
      ∀ l, vit c f1 t l = vit c f2 t l := by
  intro t
  induction t with
  | zero => intro h l; simp [vit, h 0 (le_refl 0) l]
  | succ t ih =>
      intro h l
      show maxF (fun prev => vit c f1 t prev + c.trans prev l) + f1 (t + 1) l =
        maxF (fun prev => vit c f2 t prev + c.trans prev l) + f2 (t + 1) l
      have hfun : (fun prev => vit c f1 t prev + c.trans prev l) =
          (fun prev => vit c f2 t prev + c.trans prev l) :=
        funext fun p => by rw [ih (fun i hi => h i (by omega)) p]
      rw [hfun, h (t + 1) (le_refl _) l]

lemma bp_congr {n : ℕ} [NeZero n] (c : CRF n) (f1 f2 : ℕ → Fin n → ℝ) (t : ℕ)
    (h : ∀ i, i ≤ t → ∀ l, f1 i l = f2 i l) (l : Fin n) :
    bp c f1 t l = bp c f2 t l := by
  have hfun : (fun prev => vit c f1 t prev + c.trans prev l) =
      (fun prev => vit c f2 t prev + c.trans prev l) :=
    funext fun p => by rw [vit_congr c f1 f2 t h p]
  rw [bp, bp, hfun]

lemma bestAux_congr {n : ℕ} [NeZero n] (c : CRF n) (f1 f2 : ℕ → Fin n → ℝ)
    (last : ℕ) (h : ∀ i, i ≤ last → ∀ l, f1 i l = f2 i l) :
    ∀ k, bestAux c f1 last k = bestAux c f2 last k := by
  intro k
  induction k with
  | zero =>
      have hfun : (fun l => vit c f1 last l + c.endBias l) =
          (fun l => vit c f2 last l + c.endBias l) :=
        funext fun l => by rw [vit_congr c f1 f2 last h l]
      show argmaxF (fun l => vit c f1 last l + c.endBias l) =
        argmaxF (fun l => vit c f2 last l + c.endBias l)
      rw [hfun]
  | succ k ih =>
      show bp c f1 (last - (k + 1)) (bestAux c f1 last k) =
        bp c f2 (last - (k + 1)) (bestAux c f2 last k)
      rw [ih, bp_congr c f1 f2 (last - (k + 1))
        (fun i hi => h i (by omega))]

lemma viterbiPath_congr {n : ℕ} [NeZero n] (c : CRF n) (f1 f2 : ℕ → Fin n → ℝ)
    (last : ℕ) (h : ∀ i, i ≤ last → ∀ l, f1 i l = f2 i l) :
    viterbiPath c f1 last = viterbiPath c f2 last := by
  have hfun : bestLab c f1 last = bestLab c f2 last :=
    funext fun t => by rw [bestLab, bestLab, bestAux_congr c f1 f2 last h]
  rw [viterbiPath, viterbiPath, hfun]

lemma tagger_score_congr {n : ℕ} (c : CRF n) (f1 f2 : ℕ → Fin n → ℝ)
    (labs : ℕ → Fin n) (lmax len : ℕ)
    (h : ∀ i, i < len → ∀ l, f1 i l = f2 i l) :
    tagger_score c f1 labs lmax len = tagger_score c f2 labs lmax len := by
  rw [tagger_score, tagger_score]
  congr 1
  refine Finset.sum_congr rfl (fun t _ => ?_)
  by_cases hc : t < len
  · rw [h t hc (labs t)]
  · simp [sequence_mask, hc]

-- ## Lemmas about the dataset loop

lemma loadFileGo_no_end {σ τ : Type} (s2t : List String → σ) (l2t : List String → τ)
    (limit : Option ℕ) :
    ∀ (lines : List String) (d : Dataset σ τ) (src tgt : List String) (i : ℕ),
      (∀ l ∈ lines, (splitTab l).length ≠ 1) →
      loadFileGo s2t l2t limit lines d src tgt i = d := by
  intro lines
  induction lines with
  | nil => intro d src tgt i _; rfl
  | cons line rest ih =>
      intro d src tgt i h
      have h1 : (splitTab line).length ≠ 1 := h line (List.mem_cons_self line rest)
      rw [loadFileGo]
      simp only [h1, if_false]
      exact ih d _ _ i (fun l hl => h l (List.mem_cons_of_mem line hl))

lemma loadFileGo_append {σ τ : Type} (s2t : List String → σ) (l2t : List String → τ)
    (limit : Option ℕ) (trailing : List String)
    (htr : ∀ l ∈ trailing, (splitTab l).length ≠ 1) :
    ∀ (lines : List String) (d : Dataset σ τ) (src tgt : List String) (i : ℕ),
      loadFileGo s2t l2t limit (lines ++ trailing) d src tgt i =
        loadFileGo s2t l2t limit lines d src tgt i := by
  intro lines
  induction lines with
  | nil =>
      intro d src tgt i
      simp only [List.nil_append]
      exact loadFileGo_no_end s2t l2t limit trailing d src tgt i htr
  | cons line rest ih =>
      intro d src tgt i
      rw [List.cons_append, loadFileGo, loadFileGo]
      by_cases h1 : (splitTab line).length = 1
      · simp only [h1, if_true]
        by_cases h2 : limit = some (i + 1)
        · simp only [h2, eq_self_iff_true, if_true]
        · simp only [if_neg h2]
          exact ih _ _ _ _
      · simp only [h1, if_false]
        exact ih _ _ _ _

lemma loadFileGo_inv {σ τ : Type} (s2t : List String → σ) (l2t : List String → τ)
    (limit : Option ℕ) :
    ∀ (lines : List String) (d : Dataset σ τ) (src tgt : List String) (i : ℕ),
      d.source.length = d.target.length →
      (loadFileGo s2t l2t limit lines d src tgt i).source.length =
        (loadFileGo s2t l2t limit lines d src tgt i).target.length := by
  intro lines
  induction lines with
  | nil => intro d src tgt i h; exact h
  | cons line rest ih =>
      intro d src tgt i h
      rw [loadFileGo]
      by_cases h1 : (splitTab line).length = 1
      · simp only [h1, if_true]
        by_cases h2 : limit = some (i + 1)
        · simp [h2, List.length_append, h]
        · simp only [if_neg h2]
          exact ih _ _ _ _ (by simp [List.length_append, h])
      · simp only [h1, if_false]
        exact ih _ _ _ _ h

lemma zip_map_fst_snd {σ τ : Type} (c : List (σ × τ)) :
    (c.map Prod.fst).zip (c.map Prod.snd) = c := by
  have h := List.zip_unzip c
  rwa [List.unzip_eq_map] at h

-- ## Claim theorems

/-- Claim C1: for every tagger, input, valid gold label sequence and
positive length, the partition function dominates the gold sequence
score, and consequently every negative log-likelihood value returned by
Tagger.forward is nonnegative. -/
theorem C1_partition_dominates {n : ℕ} {ι : Type} (tg : Tagger n ι) (input : ι)
    (labs : ℕ → Fin n) (len : ℕ) (hlen : 1 ≤ len) :
    seqScore tg.crf (tg.featsOf input) labs len ≤
      partition_function tg.crf (tg.featsOf input) len ∧
    ∀ r : ℝ, tg.forward input labs len = Except.ok r → 0 ≤ r := by
  obtain ⟨t, rfl⟩ : ∃ t, len = t + 1 := ⟨len - 1, by omega⟩
  have hmain := partition_ge_seqScore tg.crf (tg.featsOf input) labs t
  refine ⟨hmain, ?_⟩
  intro r hr
  have hne : ¬(t + 1 = 0) := by omega
  simp only [Tagger.forward, crf_loglik, if_neg hne, Except.map] at hr
  have hval : (-1 : ℝ) * (seqScore tg.crf (tg.featsOf input) labs (t + 1)
      - partition_function tg.crf (tg.featsOf input) (t + 1)) = r := by
    injection hr
  linarith

/-- Claim C2: Tagger.predict on a sequence of true length len at least 1
returns the decoded path of length len over positions 0..len-1 (padded
positions excluded), and that path maximizes the sequence score over
all label sequences of length len. -/
theorem C2_predict_maximizes {n : ℕ} {ι : Type} [NeZero n] (tg : Tagger n ι)
    (input : ι) (len : ℕ) (hlen : 1 ≤ len) :
    tg.predict input len = Except.ok
      ((List.range len).map (bestLab tg.crf (tg.featsOf input) (len - 1))) ∧
    ((List.range len).map (bestLab tg.crf (tg.featsOf input) (len - 1))).length = len ∧
    ∀ labs : ℕ → Fin n,
      seqScore tg.crf (tg.featsOf input) labs len ≤
        seqScore tg.crf (tg.featsOf input)
          (bestLab tg.crf (tg.featsOf input) (len - 1)) len := by
  obtain ⟨t, rfl⟩ : ∃ t, len = t + 1 := ⟨len - 1, by omega⟩
  have hne : ¬(t + 1 = 0) := by omega
  refine ⟨?_, by simp, ?_⟩
  · simp only [Tagger.predict, viterbi_tags, if_neg hne, viterbiPath, Nat.add_sub_cancel]
  · intro labs
    have h := viterbi_opt tg.crf (tg.featsOf input) t labs
    simpa [Nat.add_sub_cancel] using h

/-- Claim C3: Tagger.forward returns the negative log-likelihood, the
partition function minus the gold sequence score, both computed on the
emission scores produced by the feature composer. -/
theorem C3_forward_is_nll {n : ℕ} {ι : Type} (tg : Tagger n ι) (input : ι)
    (labs : ℕ → Fin n) (len : ℕ) (hlen : 1 ≤ len) :
    tg.forward input labs len = Except.ok
      (partition_function tg.crf (tg.featsOf input) len -
        seqScore tg.crf (tg.featsOf input) labs len) := by
  have hne : ¬(len = 0) := by omega
  simp only [Tagger.forward, crf_loglik, if_neg hne, Except.map]
  congr 1
  ring

/-- Claim C4: Tagger._score equals, per sequence, the sum over valid
positions of the gold label emission score, plus the transition score
from each previous gold label to the current one for positions above 0,
plus the start bias at position 0 and the end bias at the last valid
position; positions at or beyond the true length contribute zero. -/
theorem C4_score_decomposition {n : ℕ} (c : CRF n) (feats : ℕ → Fin n → ℝ)
    (labs : ℕ → Fin n) (lmax len : ℕ) (_h1 : 1 ≤ len) (h2 : len ≤ lmax) :
    tagger_score c feats labs lmax len =
      (∑ t in Finset.range len, feats t (labs t))
        + (∑ t in Finset.range (len - 1), c.trans (labs t) (labs (t + 1)))
        + c.startBias (labs 0) + c.endBias (labs (len - 1)) := by
  rw [tagger_score, transition_score]
  have hsum : (∑ t in Finset.range lmax,
      feats t (labs t) * (if sequence_mask len t then (1 : ℝ) else 0)) =
      ∑ t in Finset.range len, feats t (labs t) := by
    rw [← Finset.sum_subset (Finset.range_subset.mpr h2)
      (fun x _ hnx => by
        have hx2 : ¬ x < len := by simpa [Finset.mem_range] using hnx
        simp [sequence_mask, hx2])]
    exact Finset.sum_congr rfl
      (fun t ht => by simp [sequence_mask, Finset.mem_range.mp ht])
  rw [hsum]
  ring

/-- Claim C5: emission scores that agree at all valid positions of a
sequence but differ arbitrarily at or beyond its true length give the
same partition function, the same sequence score and the same decoded
path for that sequence. -/
theorem C5_mask_independence {n : ℕ} [NeZero n] (c : CRF n)
    (f1 f2 : ℕ → Fin n → ℝ) (labs : ℕ → Fin n) (lmax len : ℕ) (hlen : 1 ≤ len)
    (h : ∀ t, t < len → ∀ l, f1 t l = f2 t l) :
    partition_function c f1 len = partition_function c f2 len ∧
    tagger_score c f1 labs lmax len = tagger_score c f2 labs lmax len ∧
    viterbi_tags c f1 len = viterbi_tags c f2 len := by
  have hle : ∀ i, i ≤ len - 1 → ∀ l, f1 i l = f2 i l :=
    fun i hi l => h i (by omega) l
  refine ⟨?_, tagger_score_congr c f1 f2 labs lmax len h, ?_⟩
  · rw [partition_function, partition_function]
    have hfun : (fun l => alpha c f1 (len - 1) l + c.endBias l) =
        (fun l => alpha c f2 (len - 1) l + c.endBias l) :=
      funext fun l => by rw [alpha_congr c f1 f2 (len - 1) hle l]
    rw [hfun]
  · have hne : ¬(len = 0) := by omega
    rw [viterbi_tags, viterbi_tags, if_neg hne, if_neg hne,
      viterbiPath_congr c f1 f2 (len - 1) hle]

/-- Claim C6: Tagger construction fails exactly when the character
encoder vocabulary size differs from the vocabulary character count or
the CRF label count differs from the vocabulary label count, and
succeeds when both match. -/
theorem C6_init_validates {n : ℕ} {ι : Type} (v : Vocab) (cl : CharLSTM)
    (c : CRF n) (fo : ι → ℕ → Fin n → ℝ) :
    ((Tagger.init v cl c fo).isSome ↔ (v.n_chars = cl.n_chars ∧ v.n_labels = n)) ∧
    (Tagger.init v cl c fo = none ↔ (v.n_chars ≠ cl.n_chars ∨ v.n_labels ≠ n)) := by
  rw [Tagger.init]
  split_ifs with hcond
  · simp [hcond.1, hcond.2]
  · constructor
    · simp [hcond]
    · simp only [eq_self_iff_true, true_iff]
      exact not_and_or.mp hcond

/-- Claim C7: a call of Tagger.predict or Tagger.forward with reported
length 0 is rejected with an error before the dynamic program runs. -/
theorem C7_zero_length_rejected {n : ℕ} {ι : Type} [NeZero n] (tg : Tagger n ι)
    (input : ι) (labs : ℕ → Fin n) :
    tg.predict input 0 = Except.error zeroLenErrMsg ∧
    tg.forward input labs 0 = Except.error zeroLenErrMsg := by
  constructor
  · rw [Tagger.predict, viterbi_tags]
    simp
  · rw [Tagger.forward, crf_loglik]
    simp [Except.map]

/-- Claim C8: a file whose final token line is not followed by a
label-free line has its trailing sentence silently dropped by
Dataset.load_file: the result is the same as if the trailing token lines
were absent, and no error is raised (the loader is a total function). -/
theorem C8_trailing_sentence_dropped {σ τ : Type} (d : Dataset σ τ)
    (s2t : List String → σ) (l2t : List String → τ)
    (lines trailing : List String) (limit : Option ℕ)
    (h : ∀ l ∈ trailing, (splitTab l).length ≠ 1) :
    d.load_file s2t l2t (lines ++ trailing) limit =
      d.load_file s2t l2t lines limit := by
  rw [Dataset.load_file, Dataset.load_file]
  exact loadFileGo_append s2t l2t limit trailing h lines d [] [] 0

/-- Claim C9: Dataset.shuffle on the empty dataset raises the
empty-unpacking error instead of being a no-op, and on every non-empty
dataset (with parallel source/target lists) it terminates normally. -/
theorem C9_shuffle_empty_raises {σ τ : Type} (d : Dataset σ τ)
    (rand : List (σ × τ) → List (σ × τ)) (hrand : ∀ xs, (rand xs).Perm xs)
    (hinv : d.source.length = d.target.length) :
    (d.source.length = 0 → d.shuffle rand = Except.error unpackErrMsg) ∧
    (d.source.length ≠ 0 → ∃ d2, d.shuffle rand = Except.ok d2) := by
  constructor
  · intro h0
    have hsrc : d.source = [] := List.length_eq_zero.mp h0
    have hz : d.source.zip d.target = [] := by simp [hsrc]
    have hr : rand (d.source.zip d.target) = [] := by
      rw [hz]
      exact List.Perm.eq_nil (hrand ([] : List (σ × τ)))
    rw [Dataset.shuffle, hr]
  · intro h0
    have hlen : (d.source.zip d.target).length = d.source.length := by
      simp [List.length_zip, ← hinv]
    rw [Dataset.shuffle]
    cases hc : rand (d.source.zip d.target) with
    | nil =>
        exfalso
        have hp := hrand (d.source.zip d.target)
        rw [hc] at hp
        have := hp.length_eq
        simp [hlen] at this
        exact h0 this.symm
    | cons x xs => exact ⟨_, rfl⟩

/-- Claim C10: every Dataset operation preserves the invariant that the
source and target lists have the same length: it holds after
construction, is preserved by append, by every successful shuffle
(which also preserves the multiset of source/target pairs), and by
load_file on any input. -/
theorem C10_length_invariant (σ τ : Type) :
    ((Dataset.empty σ τ).source.length = (Dataset.empty σ τ).target.length) ∧
    (∀ (d : Dataset σ τ) (s : σ) (t : τ), d.source.length = d.target.length →
      (d.append s t).source.length = (d.append s t).target.length) ∧
    (∀ (d : Dataset σ τ) (rand : List (σ × τ) → List (σ × τ)) (d2 : Dataset σ τ),
      (∀ xs, (rand xs).Perm xs) → d.shuffle rand = Except.ok d2 →
      d2.source.length = d2.target.length ∧
      (d2.source.zip d2.target).Perm (d.source.zip d.target)) ∧
    (∀ (d : Dataset σ τ) (s2t : List String → σ) (l2t : List String → τ)
      (lines : List String) (limit : Option ℕ),
      d.source.length = d.target.length →
      (d.load_file s2t l2t lines limit).source.length =
        (d.load_file s2t l2t lines limit).target.length) := by
  refine ⟨rfl, ?_, ?_, ?_⟩
  · intro d s t h
    simp [Dataset.append, h]
  · intro d rand d2 hrand hok
    rw [Dataset.shuffle] at hok
    cases hc : rand (d.source.zip d.target) with
    | nil =>
        rw [hc] at hok
        exact absurd hok (by simp)
    | cons x xs =>
        rw [hc] at hok
        have hok2 : Except.ok
            (⟨(x :: xs).map Prod.fst, (x :: xs).map Prod.snd⟩ : Dataset σ τ) =
            Except.ok d2 := hok
        have hd2 : d2 =
            ⟨(x :: xs).map Prod.fst, (x :: xs).map Prod.snd⟩ := by
          injection hok2 with hh
          exact hh.symm
        have hp := hrand (d.source.zip d.target)
        rw [hc] at hp
        constructor
        · simp [hd2]
        · rw [hd2]
          simp only
          rw [zip_map_fst_snd]
          exact hp
  · intro d s2t l2t lines limit h
    rw [Dataset.load_file]
    exact loadFileGo_inv s2t l2t limit lines d [] [] 0 h

-- ## Witnesses: the claim theorems applied at concrete inputs

/-- Witness for C1 at a concrete one-label tagger and length 1. -/
theorem C1_witness :
    1 ≤ 1 ∧
    (seqScore sampleTagger.crf (sampleTagger.featsOf ()) sampleLabs 1 ≤
        partition_function sampleTagger.crf (sampleTagger.featsOf ()) 1 ∧
      ∀ r : ℝ, sampleTagger.forward () sampleLabs 1 = Except.ok r → 0 ≤ r) :=
  ⟨by decide, C1_partition_dominates sampleTagger () sampleLabs 1 (by decide)⟩

/-- Witness for C2 at a concrete one-label tagger and length 1. -/
theorem C2_witness :
    1 ≤ 1 ∧
    (sampleTagger.predict () 1 = Except.ok
        ((List.range 1).map (bestLab sampleTagger.crf (sampleTagger.featsOf ()) (1 - 1))) ∧
      ((List.range 1).map (bestLab sampleTagger.crf (sampleTagger.featsOf ()) (1 - 1))).length = 1 ∧
      ∀ labs : ℕ → Fin 1,
        seqScore sampleTagger.crf (sampleTagger.featsOf ()) labs 1 ≤
          seqScore sampleTagger.crf (sampleTagger.featsOf ())
            (bestLab sampleTagger.crf (sampleTagger.featsOf ()) (1 - 1)) 1) :=
  ⟨by decide, C2_predict_maximizes sampleTagger () 1 (by decide)⟩

/-- Witness for C3 at a concrete one-label tagger and length 1. -/
theorem C3_witness :
    1 ≤ 1 ∧
    sampleTagger.forward () sampleLabs 1 = Except.ok
      (partition_function sampleTagger.crf (sampleTagger.featsOf ()) 1 -
        seqScore sampleTagger.crf (sampleTagger.featsOf ()) sampleLabs 1) :=
  ⟨by decide, C3_forward_is_nll sampleTagger () sampleLabs 1 (by decide)⟩

/-- Witness for C4 at a concrete one-label CRF, padded length 1, true
length 1. -/
theorem C4_witness :
    (1 ≤ 1 ∧ 1 ≤ 1) ∧
    tagger_score sampleCRF sampleFeats sampleLabs 1 1 =
      (∑ t in Finset.range 1, sampleFeats t (sampleLabs t))
        + (∑ t in Finset.range (1 - 1), sampleCRF.trans (sampleLabs t) (sampleLabs (t + 1)))
        + sampleCRF.startBias (sampleLabs 0) + sampleCRF.endBias (sampleLabs (1 - 1)) :=
  ⟨⟨by decide, by decide⟩,
    C4_score_decomposition sampleCRF sampleFeats sampleLabs 1 1 (by decide) (by decide)⟩

/-- Witness for C5: two concrete emission-score functions agreeing at
position 0 and differing beyond it, true length 1, padded length 3. -/
theorem C5_witness :
    (1 ≤ 1 ∧ ∀ t, t < 1 → ∀ l : Fin 1, sampleFeats t l = sampleFeats2 t l) ∧
    (partition_function sampleCRF sampleFeats 1 = partition_function sampleCRF sampleFeats2 1 ∧
      tagger_score sampleCRF sampleFeats sampleLabs 3 1 =
        tagger_score sampleCRF sampleFeats2 sampleLabs 3 1 ∧
      viterbi_tags sampleCRF sampleFeats 1 = viterbi_tags sampleCRF sampleFeats2 1) := by
  have hagree : ∀ t, t < 1 → ∀ l : Fin 1, sampleFeats t l = sampleFeats2 t l := by
    intro t ht l
    have h0 : t = 0 := Nat.lt_one_iff.mp ht
    simp [h0, sampleFeats, sampleFeats2]
  exact ⟨⟨by decide, hagree⟩,
    C5_mask_independence sampleCRF sampleFeats sampleFeats2 sampleLabs 3 1 (by decide) hagree⟩

/-- Witness for C7 at a concrete one-label tagger. -/
theorem C7_witness :
    sampleTagger.predict () 0 = Except.error zeroLenErrMsg ∧
    sampleTagger.forward () sampleLabs 0 = Except.error zeroLenErrMsg :=
  C7_zero_length_rejected sampleTagger () sampleLabs

/-- Witness for C8: one concrete trailing token line with a tab. -/
theorem C8_witness :
    (∀ l ∈ [sampleTokenLine], (splitTab l).length ≠ 1) ∧
    (Dataset.empty ℕ ℕ).load_file List.length List.length ([] ++ [sampleTokenLine]) none =
      (Dataset.empty ℕ ℕ).load_file List.length List.length [] none := by
  have h : ∀ l ∈ [sampleTokenLine], (splitTab l).length ≠ 1 := by
    intro l hl
    rw [List.mem_singleton] at hl
    subst hl
    decide
  exact ⟨h, C8_trailing_sentence_dropped (Dataset.empty ℕ ℕ)
    List.length List.length [] [sampleTokenLine] none h⟩

/-- Witness for C9 at the concrete empty dataset with the identity
permutation. -/
theorem C9_witness :
    ((Dataset.empty ℕ ℕ).source.length = 0 →
      (Dataset.empty ℕ ℕ).shuffle (fun xs => xs) = Except.error unpackErrMsg) ∧
    ((Dataset.empty ℕ ℕ).source.length ≠ 0 →
      ∃ d2, (Dataset.empty ℕ ℕ).shuffle (fun xs => xs) = Except.ok d2) :=
  C9_shuffle_empty_raises (Dataset.empty ℕ ℕ) (fun xs => xs)
    (fun xs => List.Perm.refl xs) rfl

/-- Witness for C10: the append and shuffle clauses applied at concrete
one-element datasets. -/
theorem C10_witness :
    (((Dataset.empty ℕ ℕ).append 3 4).source.length =
      ((Dataset.empty ℕ ℕ).append 3 4).target.length) ∧
    ((Dataset.mk [3] [4] : Dataset ℕ ℕ).source.length =
        (Dataset.mk [3] [4] : Dataset ℕ ℕ).target.length ∧
      ((Dataset.mk [3] [4] : Dataset ℕ ℕ).source.zip
          (Dataset.mk [3] [4] : Dataset ℕ ℕ).target).Perm
        ((Dataset.mk [3] [4] : Dataset ℕ ℕ).source.zip
          (Dataset.mk [3] [4] : Dataset ℕ ℕ).target)) :=
  ⟨(C10_length_invariant ℕ ℕ).2.1 (Dataset.empty ℕ ℕ) 3 4 rfl,
    (C10_length_invariant ℕ ℕ).2.2.1 (Dataset.mk [3] [4]) (fun xs => xs)
      (Dataset.mk [3] [4]) (fun xs => List.Perm.refl xs) rfl⟩
